import Mathlib

/-!
# Verification of the glossary entity store (src/app of python-itmo-glossary)

Shallow embedding of the data model and the route handlers in
`src/app/models.py`, `src/app/main.py` and the import reconciler in
`src/app/import_data.py`.

Modelling conventions:
* The SQLAlchemy session together with the SQLite tables is modelled as a
  `DB` value holding the list of `Term` rows and `Link` rows in insertion
  order, plus the next auto-increment primary key for each table (SQLite
  starts at 1).
* A handler raising `HTTPException(status_code, detail)` is modelled as the
  operation returning `Except HTTPException α` for its result, paired with
  the database state after the call; since every `raise` in the handlers
  happens before any `db.add`/mutation is committed, the state returned on
  the error path is the input state unchanged.
* `db.query(X).filter(p).first()` is `List.find?`; `.all()` with a filter is
  `List.filter`; a bulk `.delete()` keeps the non-matching rows.
* Python f-string details are embedded without the decorative quote marks
  around the interpolated name.
* Each route handler runs in its own request-scoped session and commits
  before returning, so for the handlers the committed state threads from
  one call to the next.  The import reconciler instead runs a whole pass
  inside one `autoflush=False` session with a single commit at the end
  (`models.py` line 48, `import_data.py` lines 49 and 85): its queries
  select rows by committed column values, return identity-mapped session
  objects (so in-session attribute mutations are read back), never see
  pending inserts, and the commit applies the pass atomically or — on a
  uniqueness violation — raises `IntegrityError`, which `main` answers
  with a rollback.
* The search endpoint's `column.contains(keyword)` compiles to the
  unescaped SQL predicate `LIKE '%' || keyword || '%'`, evaluated with
  SQLite's default `LIKE` semantics (ASCII-case-insensitive, `%`/`_`
  wildcards) on the engine pinned in `models.py`.
-/

namespace Glossary

/-- Row of the `terms` table (`class Term` in `src/app/models.py`):
`id` primary key, `term` (unique name), `definition`, `node_type`
(column default `'term'`). -/
structure Term where
  id : Nat
  term : String
  definition : String
  node_type : String
deriving Repr, DecidableEq

/-- Row of the `links` table (`class Link` in `src/app/models.py`):
`id` primary key, `source_id` and `target_id` foreign keys into `terms`,
and a free-text `relation` label. -/
structure Link where
  id : Nat
  source_id : Nat
  target_id : Nat
  relation : String
deriving Repr, DecidableEq

/-- The database state: both tables in insertion order plus the next
auto-increment id of each table. -/
structure DB where
  terms : List Term
  links : List Link
  nextTermId : Nat
  nextLinkId : Nat
deriving Repr, DecidableEq

/-- The empty database, as created by `init_db` on a fresh file. SQLite
auto-increment keys start at 1. -/
def emptyDB : DB := ⟨[], [], 1, 1⟩

/-- `HTTPException(status_code, detail)` raised by the handlers. -/
structure HTTPException where
  status_code : Nat
  detail : String
deriving Repr, DecidableEq

/-- Payload of `POST /api/terms` (`TermCreate` in `src/app/schemas.py`);
`node_type` has the pydantic default `'term'` when unspecified. -/
structure TermCreate where
  term : String
  definition : String
  node_type : String
deriving Repr, DecidableEq

/-- Payload of `PUT /api/terms/id` (`TermUpdate` in `src/app/schemas.py`):
every field optional. -/
structure TermUpdate where
  term : Option String
  definition : Option String
  node_type : Option String
deriving Repr, DecidableEq

/-- Payload of `POST /api/links` (`LinkCreate` in `src/app/schemas.py`). -/
structure LinkCreate where
  source : String
  target : String
  relation : String
deriving Repr, DecidableEq

/-- Response shape of `POST /api/links` (`LinkResponse` in
`src/app/schemas.py`): endpoint names, not ids. -/
structure LinkResponse where
  id : Nat
  source : String
  target : String
  relation : String
deriving Repr, DecidableEq

/-- `create_term` (`POST /api/terms`, `src/app/main.py` lines 81-93).
Rejects a duplicate name with status 400; otherwise inserts the row.
The handler constructs `Term(term=..., definition=...)` and never reads
`term_data.node_type`, so the stored `node_type` is the column default
`'term'`. -/
def create_term (db : DB) (term_data : TermCreate) : Except HTTPException Term × DB :=
  match db.terms.find? (fun t => t.term == term_data.term) with
  | some _ => (.error ⟨400, "Термин уже существует"⟩, db)
  | none =>
      let db_term : Term := ⟨db.nextTermId, term_data.term, term_data.definition, "term"⟩
      (.ok db_term, { db with terms := db.terms ++ [db_term], nextTermId := db.nextTermId + 1 })

/-- Replace the row with primary key `i` by `f` applied to it (the ORM
mutates the fetched object in place; the primary key identifies the row). -/
def replaceById (terms : List Term) (i : Nat) (f : Term → Term) : List Term :=
  terms.map (fun t => if t.id == i then f t else t)

/-- `update_term` (`PUT /api/terms/term_id`, `src/app/main.py` lines
96-115).  404 when the id is absent; 400 when a supplied new name collides
with a different row; otherwise applies the supplied `term` and
`definition` fields.  The handler never reads `term_data.node_type`. -/
def update_term (db : DB) (term_id : Nat) (term_data : TermUpdate) :
    Except HTTPException Term × DB :=
  match db.terms.find? (fun t => t.id == term_id) with
  | none => (.error ⟨404, "Термин не найден"⟩, db)
  | some term =>
      match term_data.term with
      | some newName =>
          match db.terms.find? (fun t => t.term == newName && t.id != term_id) with
          | some _ => (.error ⟨400, "Термин с таким названием уже существует"⟩, db)
          | none =>
              let t1 : Term := { term with term := newName }
              let t2 : Term :=
                match term_data.definition with
                | some d => { t1 with definition := d }
                | none => t1
              (.ok t2, { db with terms := replaceById db.terms term_id (fun _ => t2) })
      | none =>
          let t2 : Term :=
            match term_data.definition with
            | some d => { term with definition := d }
            | none => term
          (.ok t2, { db with terms := replaceById db.terms term_id (fun _ => t2) })

/-- `delete_term` (`DELETE /api/terms/term_id`, `src/app/main.py` lines
118-132).  404 when the id is absent; otherwise deletes every `Link` whose
`source_id` or `target_id` equals the id, then the `Term` row itself. -/
def delete_term (db : DB) (term_id : Nat) : Except HTTPException Unit × DB :=
  match db.terms.find? (fun t => t.id == term_id) with
  | none => (.error ⟨404, "Термин не найден"⟩, db)
  | some _ =>
      (.ok (), { db with
        links := db.links.filter (fun l => !(l.source_id == term_id || l.target_id == term_id)),
        terms := db.terms.filter (fun t => !(t.id == term_id)) })

/-- `create_link` (`POST /api/links`, `src/app/main.py` lines 154-189).
404 when either endpoint name is absent; 400 when the exact
(source, target, relation) triple already exists; otherwise inserts the
`Link` row and answers with the endpoint names. -/
def create_link (db : DB) (link_data : LinkCreate) : Except HTTPException LinkResponse × DB :=
  match db.terms.find? (fun t => t.term == link_data.source) with
  | none => (.error ⟨404, "Исходный термин " ++ link_data.source ++ " не найден"⟩, db)
  | some source_term =>
      match db.terms.find? (fun t => t.term == link_data.target) with
      | none => (.error ⟨404, "Целевой термин " ++ link_data.target ++ " не найден"⟩, db)
      | some target_term =>
          match db.links.find? (fun l =>
              l.source_id == source_term.id && l.target_id == target_term.id &&
              l.relation == link_data.relation) with
          | some _ => (.error ⟨400, "Такая связь уже существует"⟩, db)
          | none =>
              let db_link : Link :=
                ⟨db.nextLinkId, source_term.id, target_term.id, link_data.relation⟩
              (.ok ⟨db_link.id, source_term.term, target_term.term, db_link.relation⟩,
               { db with links := db.links ++ [db_link], nextLinkId := db.nextLinkId + 1 })

/-- Node of the visualization graph (`GraphNode` in `src/app/schemas.py`):
the id is the string form of the `Term` primary key. -/
structure GraphNode where
  id : String
  label : String
  definition : String
  node_type : String
deriving Repr, DecidableEq

/-- Edge of the visualization graph (`GraphEdge` in `src/app/schemas.py`). -/
structure GraphEdge where
  source : String
  target : String
  relation : String
deriving Repr, DecidableEq

/-- `GraphResponse` in `src/app/schemas.py`. -/
structure GraphResponse where
  nodes : List GraphNode
  edges : List GraphEdge
deriving Repr, DecidableEq

/-- `get_graph` (`GET /api/graph`, `src/app/main.py` lines 206-233): maps
every `Term` row to a node and every `Link` row to an edge.  The handler
writes `term.node_type or 'term'`; the Python `or` falls back to `'term'`
exactly when the stored string is falsy, i.e. empty here. -/
def get_graph (db : DB) : GraphResponse :=
  { nodes := db.terms.map (fun term =>
      ⟨toString term.id, term.term, term.definition,
       if term.node_type == "" then "term" else term.node_type⟩),
    edges := db.links.map (fun link =>
      ⟨toString link.source_id, toString link.target_id, link.relation⟩) }

/-- Specification-side helper: `s` starts with `pat` (character-exact). -/
def startsWithChars : List Char → List Char → Bool
  | [], _ => true
  | _ :: _, [] => false
  | a :: pat, b :: s => a == b && startsWithChars pat s

/-- Specification-side helper: `pat` occurs contiguously inside `s` under
character-exact comparison (the case-sensitive substring relation the
spec asserts for search). -/
def hasSubstr (s pat : List Char) : Bool :=
  startsWithChars pat s ||
    match s with
    | [] => false
    | _ :: rest => hasSubstr rest pat

/-- ASCII case folding as SQLite's built-in `LIKE` applies it: the
letters A-Z compare equal to a-z; every other character (including
non-ASCII) compares exactly. -/
def foldAscii (c : Char) : Char :=
  if 'A' ≤ c ∧ c ≤ 'Z' then Char.ofNat (c.toNat + 32) else c

/-- Try a matcher on every suffix of the string (how a `%` wildcard
consumes zero or more characters). -/
def tryAll (m : List Char → Bool) : List Char → Bool
  | [] => m []
  | c :: s => m (c :: s) || tryAll m s

/-- SQLite's default `LIKE` match (`models.py` pins
`sqlite:///./data/glossary.db`, so this collation applies): `%` matches
any character sequence, `_` matches exactly one character, and any other
pattern character matches ASCII-case-insensitively. -/
def likeMatch : List Char → List Char → Bool
  | [], s => s.isEmpty
  | p :: ps, s =>
      if p == '%' then tryAll (likeMatch ps) s
      else
        match s with
        | [] => false
        | c :: s' => (p == '_' || foldAscii p == foldAscii c) && likeMatch ps s'

/-- `search_term` (`GET /api/terms/search/keyword`, `src/app/main.py`
lines 72-78): `Term.term.contains(keyword)` compiles to the unescaped
SQL predicate `term LIKE '%' || keyword || '%'` evaluated by the SQLite
engine of `models.py`, likewise for the definition column. -/
def search_term (db : DB) (keyword : String) : List Term :=
  db.terms.filter (fun t =>
    likeMatch ('%' :: (keyword.data ++ ['%'])) t.term.data ||
    likeMatch ('%' :: (keyword.data ++ ['%'])) t.definition.data)

/-! ## Import reconciler (`src/app/import_data.py`) -/

/-- One parsed row of `terms.csv`. -/
structure TermRow where
  term : String
  definition : String
deriving Repr, DecidableEq

/-- One parsed row of `links.csv`. -/
structure LinkRow where
  source : String
  target : String
  relation : String
deriving Repr, DecidableEq

/-- `get_node_type` inside `import_terms` (`src/app/import_data.py`
lines 18-24): the node type is a fixed function of the term name. -/
def get_node_type (term_name : String) : String :=
  if term_name == "Подход к разработке интерфейса" then "root"
  else if term_name == "Классическая разработка UI" || term_name == "Backend-Driven UI" then
    "approach"
  else "term"

/-- Aggregate report of one reconciliation run: terms created / updated /
already up to date, links created, relation rows skipped because an
endpoint name was not found (the per-row warning). -/
structure ImportReport where
  created : Nat
  updated : Nat
  unchanged : Nat
  linksCreated : Nat
  linksSkipped : Nat
deriving Repr, DecidableEq

/-- Session effect of one matched row of `import_terms`
(`src/app/import_data.py` lines 38-46): mutate the mapped object's
definition and/or node type in place when they differ from the row.
Returns the object's new image and whether it was dirtied. -/
def sessionUpdate (existing : Term) (row : TermRow) : Term × Bool :=
  let node_type := get_node_type row.term
  let defDiff := existing.definition != row.definition
  let e1 : Term :=
    if defDiff then { existing with definition := row.definition } else existing
  let typeDiff := e1.node_type != node_type
  let e2 : Term := if typeDiff then { e1 with node_type := node_type } else e1
  (e2, defDiff || typeDiff)

/-- In-session state of one `import_terms` pass, plus the printed
counters.  The session of `models.py` is `autoflush=False` with a single
`db.commit()` at the end of the pass (`import_data.py` line 49): a query
inside the loop selects rows by the committed column values and returns
the identity-mapped session objects.  The pass never changes a name, so
the row selection agrees with filtering `objs` (the session images of
the rows committed at pass start) by name, while attribute reads see the
in-session mutations; `ins` are the pending inserts, invisible to every
query until the commit (their primary keys are assigned at flush, hence
the 0 placeholder). -/
structure TermPassOut where
  objs : List Term
  ins : List Term
  created : Nat
  updated : Nat
  unchanged : Nat
deriving Repr, DecidableEq

/-- The row loop of `import_terms` (`src/app/import_data.py` lines
28-48) under the session semantics described at `TermPassOut`. -/
def importTermsLoop : List TermRow → List Term → List Term → TermPassOut
  | [], objs, ins => ⟨objs, ins, 0, 0, 0⟩
  | row :: rest, objs, ins =>
      match objs.find? (fun t => t.term == row.term) with
      | none =>
          let r := importTermsLoop rest objs
            (ins ++ [⟨0, row.term, row.definition, get_node_type row.term⟩])
          { r with created := r.created + 1 }
      | some existing =>
          match sessionUpdate existing row with
          | (e2, true) =>
              let r := importTermsLoop rest (replaceById objs existing.id (fun _ => e2)) ins
              { r with updated := r.updated + 1 }
          | (_, false) =>
              let r := importTermsLoop rest objs ins
              { r with unchanged := r.unchanged + 1 }

/-- Primary keys SQLite assigns to the pending inserts at flush, in
insertion order. -/
def assignIds (next : Nat) : List Term → List Term
  | [] => []
  | t :: ts => ⟨next, t.term, t.definition, t.node_type⟩ :: assignIds (next + 1) ts

/-- `import_terms` (`src/app/import_data.py` lines 15-49): run the row
loop, then the single `db.commit()`.  The commit applies the updates and
inserts atomically; it raises `IntegrityError` — rolling the whole pass
back — exactly when an inserted name collides with another insert or
with an existing row (`terms.term` is `unique=True`). -/
def import_terms (rows : List TermRow) (db : DB) :
    Except String (DB × Nat × Nat × Nat) :=
  let r := importTermsLoop rows db.terms []
  if (r.ins.map Term.term).Nodup ∧
      ∀ n ∈ r.ins.map Term.term, n ∉ r.objs.map Term.term then
    .ok (⟨r.objs ++ assignIds db.nextTermId r.ins, db.links,
          db.nextTermId + r.ins.length, db.nextLinkId⟩,
         r.created, r.updated, r.unchanged)
  else .error "IntegrityError: UNIQUE constraint failed: terms.term"

/-- Pending link inserts of one `import_links` pass (as
(source id, target id, relation) triples: their primary keys are
assigned at flush) plus the printed counters. -/
structure LinkPassOut where
  pending : List (Nat × Nat × String)
  created : Nat
  skipped : Nat
deriving Repr, DecidableEq

/-- The row loop of `import_links` (`src/app/import_data.py` lines
56-84).  The pass runs after `import_terms` committed, so every query
sees the committed `terms` and `links` tables, which the loop itself
never changes: the endpoint lookup and the duplicate check both run
against the pass-start state, and pending inserts are invisible (so an
intra-batch duplicate triple is inserted twice — `links` carries no
uniqueness constraint). -/
def importLinksLoop (terms : List Term) (links : List Link) :
    List LinkRow → LinkPassOut
  | [] => ⟨[], 0, 0⟩
  | row :: rest =>
      match terms.find? (fun t => t.term == row.source) with
      | none =>
          let r := importLinksLoop terms links rest
          { r with skipped := r.skipped + 1 }
      | some source_term =>
          match terms.find? (fun t => t.term == row.target) with
          | none =>
              let r := importLinksLoop terms links rest
              { r with skipped := r.skipped + 1 }
          | some target_term =>
              match links.find? (fun l =>
                  l.source_id == source_term.id && l.target_id == target_term.id &&
                  l.relation == row.relation) with
              | some _ => importLinksLoop terms links rest
              | none =>
                  let r := importLinksLoop terms links rest
                  { r with
                      pending := (source_term.id, target_term.id, row.relation) :: r.pending,
                      created := r.created + 1 }

/-- Primary keys SQLite assigns to the pending link inserts at flush, in
insertion order. -/
def assignLinkIds (next : Nat) : List (Nat × Nat × String) → List Link
  | [] => []
  | (s, t, rel) :: rest => ⟨next, s, t, rel⟩ :: assignLinkIds (next + 1) rest

/-- `import_links` (`src/app/import_data.py` lines 52-85): the row loop
followed by the final `db.commit()`, which never fails (no constraint on
`links`; SQLite foreign keys are not enabled). -/
def import_links (rows : List LinkRow) (db : DB) : DB × Nat × Nat :=
  let r := importLinksLoop db.terms db.links rows
  (⟨db.terms, db.links ++ assignLinkIds db.nextLinkId r.pending,
    db.nextTermId, db.nextLinkId + r.pending.length⟩,
   r.created, r.skipped)

/-- One reconciliation run, as `main` in `src/app/import_data.py`
performs it: the term pass, then the link pass, inside one
`try`/`except` whose handler rolls the session back — an
`IntegrityError` at the term-pass commit therefore leaves the store
unchanged and produces no report. -/
def import_run (termRows : List TermRow) (linkRows : List LinkRow) (db : DB) :
    DB × Option ImportReport :=
  match import_terms termRows db with
  | .error _ => (db, none)
  | .ok (db1, c, u, n) =>
      let r := import_links linkRows db1
      (r.1, some ⟨c, u, n, r.2.1, r.2.2⟩)

/-! ## Sequences of mutations through the web interface -/

/-- A mutating request against the term collection: `POST /api/terms` or
`PUT /api/terms/term_id`. -/
inductive Op where
  | add (term_data : TermCreate)
  | upd (term_id : Nat) (term_data : TermUpdate)
deriving Repr, DecidableEq

/-- Apply one request; an error response is a rejected sequence. -/
def applyOp (db : DB) : Op → Except HTTPException DB
  | .add term_data =>
      match create_term db term_data with
      | (.ok _, db') => .ok db'
      | (.error e, _) => .error e
  | .upd term_id term_data =>
      match update_term db term_id term_data with
      | (.ok _, db') => .ok db'
      | (.error e, _) => .error e

/-- Run a sequence of requests; `.ok` exactly when the store accepted
every one of them. -/
def runOps (db : DB) : List Op → Except HTTPException DB
  | [] => .ok db
  | op :: rest =>
      match applyOp db op with
      | .ok db' => runOps db' rest
      | .error e => .error e

/-! ## Store invariants -/

/-- Well-formedness of a database state: primary keys of both tables are
pairwise distinct and below the respective auto-increment counter, and
term names are pairwise distinct (the `unique=True` column constraint). -/
def WF (db : DB) : Prop :=
  db.terms.Pairwise (fun a b => a.id ≠ b.id) ∧
  (∀ t ∈ db.terms, t.id < db.nextTermId) ∧
  db.terms.Pairwise (fun a b => a.term ≠ b.term) ∧
  db.links.Pairwise (fun a b => a.id ≠ b.id) ∧
  (∀ l ∈ db.links, l.id < db.nextLinkId)

/-- Referential integrity: every link endpoint id is the id of some term. -/
def RefInt (db : DB) : Prop :=
  ∀ l ∈ db.links, (∃ t ∈ db.terms, t.id = l.source_id) ∧ ∃ t ∈ db.terms, t.id = l.target_id

/-- A term row is settled in a term table: some stored term carries its
name, its definition and its computed node type, so the import loop has
nothing to do for it. -/
def settledRow (terms : List Term) (row : TermRow) : Prop :=
  ∃ t ∈ terms, t.term = row.term ∧ t.definition = row.definition ∧
    t.node_type = get_node_type row.term

/-- A relation row is settled in a state: an endpoint name is missing
(the row is skipped again) or the exact triple is already stored (the
row is a no-op). -/
def linkRowSettled (terms : List Term) (links : List Link) (row : LinkRow) : Prop :=
  (∀ t ∈ terms, t.term ≠ row.source) ∨
  (∀ t ∈ terms, t.term ≠ row.target) ∨
  (∃ st ∈ terms, ∃ tt ∈ terms, st.term = row.source ∧ tt.term = row.target ∧
    ∃ l ∈ links, l.source_id = st.id ∧ l.target_id = tt.id ∧ l.relation = row.relation)

/-! ## General lemmas -/

/-- In a list whose elements have pairwise distinct keys, two members with
the same key are the same element. -/
theorem eq_of_pairwise_key {α β : Type} {l : List α} {f : α → β}
    (hp : l.Pairwise (fun a b => f a ≠ f b)) {a b : α}
    (ha : a ∈ l) (hb : b ∈ l) (h : f a = f b) : a = b := by
  induction l with
  | nil => cases ha
  | cons x xs ih =>
      rw [List.pairwise_cons] at hp
      rcases List.mem_cons.mp ha with rfl | ha'
      · rcases List.mem_cons.mp hb with rfl | hb'
        · rfl
        · exact absurd h (hp.1 b hb')
      · rcases List.mem_cons.mp hb with rfl | hb'
        · exact absurd h.symm (hp.1 a ha')
        · exact ih hp.2 ha' hb'

/-! ## C4: duplicate term names are rejected without touching the store -/

/-- **C4.** `create_term` fails with status 400 (`DuplicateTerm`) when a
`Term` with the requested name already exists, and the store is unchanged
on that failure; moreover, on the empty store `addTerm("A", "def A")`
succeeds, a second `addTerm("A", "def B")` fails, and the store still
holds exactly one term `A` with definition `def A`. -/
theorem create_term_duplicate_rejected :
    (∀ (db : DB) (td : TermCreate), (∃ t ∈ db.terms, t.term = td.term) →
        (create_term db td).1 = .error ⟨400, "Термин уже существует"⟩ ∧
        (create_term db td).2 = db) ∧
    (create_term emptyDB ⟨"A", "def A", "term"⟩).1 =
        .ok ⟨1, "A", "def A", "term"⟩ ∧
    (create_term (create_term emptyDB ⟨"A", "def A", "term"⟩).2 ⟨"A", "def B", "term"⟩).1 =
        .error ⟨400, "Термин уже существует"⟩ ∧
    (create_term (create_term emptyDB ⟨"A", "def A", "term"⟩).2 ⟨"A", "def B", "term"⟩).2.terms =
        [⟨1, "A", "def A", "term"⟩] := by
  refine ⟨fun db td h => ?_, by rfl, by rfl, by decide⟩
  obtain ⟨t, ht, hname⟩ := h
  have hsome : (db.terms.find? (fun t => t.term == td.term)).isSome := by
    rw [List.find?_isSome]
    exact ⟨t, ht, by simpa using hname⟩
  obtain ⟨r, hr⟩ := Option.isSome_iff_exists.mp hsome
  simp [create_term, hr]

/-- Witness for C4 at a concrete store. -/
theorem create_term_duplicate_rejected_witness :
    (create_term ⟨[⟨1, "A", "def A", "term"⟩], [], 2, 1⟩ ⟨"A", "x", "term"⟩).1 =
        .error ⟨400, "Термин уже существует"⟩ ∧
    (create_term ⟨[⟨1, "A", "def A", "term"⟩], [], 2, 1⟩ ⟨"A", "x", "term"⟩).2 =
        ⟨[⟨1, "A", "def A", "term"⟩], [], 2, 1⟩ :=
  create_term_duplicate_rejected.1 ⟨[⟨1, "A", "def A", "term"⟩], [], 2, 1⟩ ⟨"A", "x", "term"⟩
    ⟨⟨1, "A", "def A", "term"⟩, by simp, rfl⟩

/-! ## C5: the handlers drop the caller-supplied node type -/

/-- **C5.** Evaluation of the code at the failing inputs: a create request
that supplies `node_type = "root"` stores the column default `"term"`
instead, and an update request that supplies `node_type = "root"` leaves
the stored `node_type` untouched — the `node_type` of a `Term` is NOT
caller-controlled through `POST /api/terms` / `PUT /api/terms/id`, because
neither handler reads `term_data.node_type`. -/
theorem node_type_not_caller_controlled :
    (create_term emptyDB ⟨"A", "d", "root"⟩).2.terms = [⟨1, "A", "d", "term"⟩] ∧
    (update_term (create_term emptyDB ⟨"A", "d", "root"⟩).2 1
        ⟨none, none, some "root"⟩).2.terms = [⟨1, "A", "d", "term"⟩] := by
  decide

/-! ## C10: self-loops are permitted -/

/-- **C10.** When a term named `T` exists (as found by the handler) and no
`(T, T, relation)` triple exists yet, `addLink(T, T, relation)` succeeds
and stores a `Link` whose source and target are both that term's id. -/
theorem create_link_self_loop (db : DB) (T rel : String) (t : Term)
    (hfind : db.terms.find? (fun x => x.term == T) = some t)
    (hno : ∀ l ∈ db.links,
      ¬(l.source_id = t.id ∧ l.target_id = t.id ∧ l.relation = rel)) :
    (create_link db ⟨T, T, rel⟩).1 = .ok ⟨db.nextLinkId, t.term, t.term, rel⟩ ∧
    (create_link db ⟨T, T, rel⟩).2.links = db.links ++ [⟨db.nextLinkId, t.id, t.id, rel⟩] := by
  have hnone : db.links.find? (fun l =>
      l.source_id == t.id && l.target_id == t.id && l.relation == rel) = none := by
    rw [List.find?_eq_none]
    intro l hl
    simpa using hno l hl
  simp [create_link, hfind, hnone]

/-- Witness for C10: a self-loop on a one-term store. -/
theorem create_link_self_loop_witness :
    (create_link ⟨[⟨1, "A", "a", "term"⟩], [], 2, 1⟩ ⟨"A", "A", "rel"⟩).1 =
        .ok ⟨1, "A", "A", "rel"⟩ ∧
    (create_link ⟨[⟨1, "A", "a", "term"⟩], [], 2, 1⟩ ⟨"A", "A", "rel"⟩).2.links =
        [] ++ [⟨1, 1, 1, "rel"⟩] :=
  create_link_self_loop ⟨[⟨1, "A", "a", "term"⟩], [], 2, 1⟩ "A" "rel"
    ⟨1, "A", "a", "term"⟩ (by decide) (by simp)

/-! ## C8: the graph projection -/

/-- **C8.** `get_graph` is a pure function of the store: position for
position, the `i`-th node presents the `i`-th `Term` as
`(id, label = name, definition, nodeType)` and the `i`-th edge presents
the `i`-th `Link` as `(source id, target id, relation)` — so there is
exactly one node per term and one edge per link; and after
`addTerm("A")`, `addTerm("B")`, `addLink("A","B","related")`,
`deleteTerm(A)` the projection is one node `B` and no edges. -/
theorem get_graph_projection :
    (∀ (db : DB) (i : Nat),
      (get_graph db).nodes[i]? = db.terms[i]?.map (fun t =>
        ⟨toString t.id, t.term, t.definition,
         if t.node_type == "" then "term" else t.node_type⟩) ∧
      (get_graph db).edges[i]? = db.links[i]?.map (fun l =>
        ⟨toString l.source_id, toString l.target_id, l.relation⟩) ∧
      (get_graph db).nodes.length = db.terms.length ∧
      (get_graph db).edges.length = db.links.length) ∧
    get_graph (delete_term (create_link (create_term (create_term emptyDB
        ⟨"A", "a", "term"⟩).2 ⟨"B", "b", "term"⟩).2 ⟨"A", "B", "related"⟩).2 1).2 =
      ⟨[⟨"2", "B", "b", "term"⟩], []⟩ := by
  refine ⟨fun db i => ⟨?_, ?_, ?_, ?_⟩, by decide⟩ <;>
    simp [get_graph]

/-! ## C9: substring search -/

/-- `startsWithChars` decides the existence of a completing suffix. -/
theorem startsWithChars_iff (pat s : List Char) :
    startsWithChars pat s = true ↔ ∃ r, s = pat ++ r := by
  induction pat generalizing s with
  | nil => simp [startsWithChars]
  | cons a as ih =>
      cases s with
      | nil => simp [startsWithChars]
      | cons b bs =>
          rw [startsWithChars]
          simp only [Bool.and_eq_true, beq_iff_eq, ih, List.cons_append]
          constructor
          · rintro ⟨rfl, r, rfl⟩
            exact ⟨r, rfl⟩
          · rintro ⟨r, hr⟩
            rw [List.cons_eq_cons] at hr
            exact ⟨hr.1.symm, r, hr.2⟩

/-- `hasSubstr` decides the existence of a contiguous occurrence. -/
theorem hasSubstr_iff (s pat : List Char) :
    hasSubstr s pat = true ↔ ∃ l r, s = l ++ pat ++ r := by
  induction s with
  | nil =>
      rw [hasSubstr]
      simp only [Bool.or_false, startsWithChars_iff]
      constructor
      · rintro ⟨r, hr⟩
        exact ⟨[], r, hr⟩
      · rintro ⟨l, r, hr⟩
        rw [List.append_assoc] at hr
        rcases List.append_eq_nil.mp hr.symm with ⟨rfl, h2⟩
        exact ⟨r, h2.symm⟩
  | cons c cs ih =>
      rw [hasSubstr]
      simp only [Bool.or_eq_true, startsWithChars_iff, ih]
      constructor
      · rintro (⟨r, hr⟩ | ⟨l, r, hr⟩)
        · exact ⟨[], r, by simpa using hr⟩
        · exact ⟨c :: l, r, by simp [hr]⟩
      · rintro ⟨l, r, hr⟩
        cases l with
        | nil => exact .inl ⟨r, by simpa using hr⟩
        | cons x xs =>
            simp only [List.cons_append, List.cons_eq_cons] at hr
            exact .inr ⟨xs, r, hr.2⟩

/-- `tryAll` decides whether the matcher accepts some suffix. -/
theorem tryAll_iff (m : List Char → Bool) (s : List Char) :
    tryAll m s = true ↔ ∃ l r, s = l ++ r ∧ m r = true := by
  induction s with
  | nil =>
      simp only [tryAll]
      constructor
      · intro h
        exact ⟨[], [], rfl, h⟩
      · rintro ⟨l, r, hlr, hr⟩
        rcases List.append_eq_nil.mp hlr.symm with ⟨rfl, rfl⟩
        exact hr
  | cons c cs ih =>
      rw [tryAll]
      simp only [Bool.or_eq_true, ih]
      constructor
      · rintro (h | ⟨l, r, rfl, hr⟩)
        · exact ⟨[], c :: cs, rfl, h⟩
        · exact ⟨c :: l, r, rfl, hr⟩
      · rintro ⟨l, r, hlr, hr⟩
        cases l with
        | nil => exact .inl (by simpa using hlr ▸ hr)
        | cons x xs =>
            simp only [List.cons_append, List.cons_eq_cons] at hlr
            exact .inr ⟨xs, r, hlr.2, hr⟩

/-- A wildcard-free pattern matches exactly the strings that agree with
it after ASCII case folding. -/
theorem likeMatch_lit (pat : List Char) (hw : ∀ c ∈ pat, c ≠ '%' ∧ c ≠ '_')
    (s : List Char) :
    likeMatch pat s = true ↔ pat.map foldAscii = s.map foldAscii := by
  induction pat generalizing s with
  | nil =>
      cases s <;> simp [likeMatch]
  | cons p ps ih =>
      obtain ⟨hp1, hp2⟩ := hw p (by simp)
      rw [likeMatch.eq_def]
      simp only []
      rw [if_neg (by simpa using hp1)]
      cases s with
      | nil => simp
      | cons c s' =>
          have hq : (p == '_') = false := by simpa using hp2
          simp only [hq, Bool.false_or, Bool.and_eq_true, beq_iff_eq, List.map_cons,
            List.cons_eq_cons]
          rw [ih (fun c hc => hw c (by simp [hc]))]

/-- A wildcard-free pattern followed by `%` matches exactly the strings
with a case-folded copy of the pattern as a prefix. -/
theorem likeMatch_lit_pct (pat : List Char) (hw : ∀ c ∈ pat, c ≠ '%' ∧ c ≠ '_')
    (s : List Char) :
    likeMatch (pat ++ ['%']) s = true ↔
      ∃ m r, s = m ++ r ∧ m.map foldAscii = pat.map foldAscii := by
  induction pat generalizing s with
  | nil =>
      simp only [List.nil_append, likeMatch]
      rw [if_pos (by simp)]
      rw [tryAll_iff]
      constructor
      · rintro ⟨l, r, rfl, h⟩
        exact ⟨[], l ++ r, rfl, by simp⟩
      · rintro ⟨m, r, rfl, hm⟩
        have : m = [] := by simpa using hm
        subst this
        exact ⟨r, [], by simp, by simp [likeMatch]⟩
  | cons p ps ih =>
      obtain ⟨hp1, hp2⟩ := hw p (by simp)
      rw [List.cons_append, likeMatch.eq_def]
      simp only []
      rw [if_neg (by simpa using hp1)]
      cases s with
      | nil =>
          simp only [Bool.false_eq_true, false_iff]
          rintro ⟨m, r, hmr, hm⟩
          rcases List.append_eq_nil.mp hmr.symm with ⟨rfl, rfl⟩
          simp at hm
      | cons c s' =>
          have hq : (p == '_') = false := by simpa using hp2
          simp only [hq, Bool.false_or, Bool.and_eq_true, beq_iff_eq]
          rw [ih (fun c hc => hw c (by simp [hc]))]
          constructor
          · rintro ⟨hfold, m', r, rfl, hm'⟩
            exact ⟨c :: m', r, by simp, by simp [hm', hfold]⟩
          · rintro ⟨m, r, hmr, hm⟩
            cases m with
            | nil => simp at hm
            | cons x xs =>
                simp only [List.map_cons, List.cons_eq_cons] at hm
                simp only [List.cons_append, List.cons_eq_cons] at hmr
                obtain ⟨rfl, hs'⟩ := hmr
                exact ⟨hm.1.symm, xs, r, hs', hm.2⟩

/-- The pattern `%kw%` built from a wildcard-free keyword matches exactly
the strings whose case-folded form contains the case-folded keyword as a
contiguous substring. -/
theorem likeMatch_contains (kw : List Char) (hw : ∀ c ∈ kw, c ≠ '%' ∧ c ≠ '_')
    (s : List Char) :
    likeMatch ('%' :: (kw ++ ['%'])) s = true ↔
      ∃ l r, s.map foldAscii = l ++ kw.map foldAscii ++ r := by
  rw [likeMatch.eq_def]
  simp only []
  rw [if_pos (by simp), tryAll_iff]
  constructor
  · rintro ⟨l, mid, rfl, h⟩
    obtain ⟨m, r, rfl, hm⟩ := (likeMatch_lit_pct kw hw mid).mp h
    exact ⟨l.map foldAscii, r.map foldAscii, by simp [hm]⟩
  · rintro ⟨L, R, hLR⟩
    obtain ⟨front, r, rfl, hfront, hr⟩ := List.map_eq_append_iff.mp hLR
    obtain ⟨l, m, rfl, hl, hm⟩ := List.map_eq_append_iff.mp hfront
    exact ⟨l, m ++ r, by rw [List.append_assoc],
      (likeMatch_lit_pct kw hw (m ++ r)).mpr ⟨m, r, rfl, hm⟩⟩

/-- **C9 is false as stated:** search is not case-sensitive.  The store
holding the single term `API` is returned by `searchTerms("api")` —
SQLite's `LIKE` matches ASCII letters case-insensitively — even though
neither the name `API` nor the definition contains the substring `api`
under case-sensitive comparison. -/
theorem search_term_not_case_sensitive :
    ¬ (∀ (db : DB) (keyword : String) (t : Term),
        t ∈ search_term db keyword ↔
          t ∈ db.terms ∧
          ((∃ l r, t.term.data = l ++ keyword.data ++ r) ∨
           (∃ l r, t.definition.data = l ++ keyword.data ++ r))) := by
  intro h
  have hm : (⟨1, "API", "x", "term"⟩ : Term) ∈
      search_term ⟨[⟨1, "API", "x", "term"⟩], [], 2, 1⟩ "api" := by decide
  rcases ((h _ "api" _).mp hm).2 with ⟨l, r, hlr⟩ | ⟨l, r, hlr⟩
  · have : hasSubstr "API".data "api".data = true :=
      (hasSubstr_iff _ _).mpr ⟨l, r, hlr⟩
    exact absurd this (by decide)
  · have : hasSubstr "x".data "api".data = true :=
      (hasSubstr_iff _ _).mpr ⟨l, r, hlr⟩
    exact absurd this (by decide)

/-- **C9 (amended).** `search_term` evaluates the unescaped SQLite
predicate `LIKE '%keyword%'` over name and definition; for keywords
containing no `LIKE` wildcard (`%` or `_`) it returns exactly those
Terms whose name or whose definition contains the keyword as a
contiguous substring under ASCII-case-insensitive comparison (wildcards
in the keyword instead act as wildcards of the pattern). -/
theorem search_term_like_characterization (db : DB) (keyword : String)
    (hwild : ∀ c ∈ keyword.data, c ≠ '%' ∧ c ≠ '_') (t : Term) :
    t ∈ search_term db keyword ↔
      t ∈ db.terms ∧
      ((∃ l r, t.term.data.map foldAscii = l ++ keyword.data.map foldAscii ++ r) ∨
       (∃ l r, t.definition.data.map foldAscii = l ++ keyword.data.map foldAscii ++ r)) := by
  simp [search_term, List.mem_filter, likeMatch_contains keyword.data hwild]

/-- Witness for C9 (amended): searching `api` in a store holding `API`
returns it, by the case-folded containment characterization. -/
theorem search_term_like_characterization_witness :
    (⟨1, "API", "x", "term"⟩ : Term) ∈
      search_term ⟨[⟨1, "API", "x", "term"⟩], [], 2, 1⟩ "api" :=
  (search_term_like_characterization ⟨[⟨1, "API", "x", "term"⟩], [], 2, 1⟩ "api"
      (by decide) ⟨1, "API", "x", "term"⟩).mpr
    ⟨by simp, .inl ⟨[], [], by decide⟩⟩

/-! ## C3: link creation error handling -/

/-- **C3.** `create_link` fails with 404 when either named endpoint is
absent, fails with 400 and leaves the store completely unchanged when the
exact (source, target, relation) triple already exists, and otherwise
inserts exactly that link. -/
theorem create_link_error_handling :
    ∀ (db : DB) (ld : LinkCreate),
      ((∀ t ∈ db.terms, t.term ≠ ld.source) →
        (create_link db ld).1 =
          .error ⟨404, "Исходный термин " ++ ld.source ++ " не найден"⟩ ∧
        (create_link db ld).2 = db) ∧
      ((∃ t ∈ db.terms, t.term = ld.source) → (∀ t ∈ db.terms, t.term ≠ ld.target) →
        (create_link db ld).1 =
          .error ⟨404, "Целевой термин " ++ ld.target ++ " не найден"⟩ ∧
        (create_link db ld).2 = db) ∧
      (∀ st tt, db.terms.find? (fun t => t.term == ld.source) = some st →
        db.terms.find? (fun t => t.term == ld.target) = some tt →
        ((∃ l ∈ db.links,
            l.source_id = st.id ∧ l.target_id = tt.id ∧ l.relation = ld.relation) →
          (create_link db ld).1 = .error ⟨400, "Такая связь уже существует"⟩ ∧
          (create_link db ld).2 = db) ∧
        ((∀ l ∈ db.links,
            ¬(l.source_id = st.id ∧ l.target_id = tt.id ∧ l.relation = ld.relation)) →
          (create_link db ld).1 = .ok ⟨db.nextLinkId, st.term, tt.term, ld.relation⟩ ∧
          (create_link db ld).2 =
            { db with links := db.links ++ [⟨db.nextLinkId, st.id, tt.id, ld.relation⟩],
                      nextLinkId := db.nextLinkId + 1 })) := by
  intro db ld
  refine ⟨fun hsrc => ?_, fun hsrc htgt => ?_, fun st tt hst htt => ⟨fun hdup => ?_, fun hno => ?_⟩⟩
  · have hnone : db.terms.find? (fun t => t.term == ld.source) = none := by
      rw [List.find?_eq_none]
      intro t ht
      simpa using hsrc t ht
    simp [create_link, hnone]
  · obtain ⟨t, ht, hname⟩ := hsrc
    have hsome : (db.terms.find? (fun t => t.term == ld.source)).isSome := by
      rw [List.find?_isSome]
      exact ⟨t, ht, by simpa using hname⟩
    obtain ⟨st, hst⟩ := Option.isSome_iff_exists.mp hsome
    have hnone : db.terms.find? (fun t => t.term == ld.target) = none := by
      rw [List.find?_eq_none]
      intro t' ht'
      simpa using htgt t' ht'
    simp [create_link, hst, hnone]
  · obtain ⟨l, hl, h1, h2, h3⟩ := hdup
    have hsome : (db.links.find? (fun l =>
        l.source_id == st.id && l.target_id == tt.id && l.relation == ld.relation)).isSome := by
      rw [List.find?_isSome]
      exact ⟨l, hl, by simp [h1, h2, h3]⟩
    obtain ⟨l', hl'⟩ := Option.isSome_iff_exists.mp hsome
    simp [create_link, hst, htt, hl']
  · have hnone : db.links.find? (fun l =>
        l.source_id == st.id && l.target_id == tt.id && l.relation == ld.relation) = none := by
      rw [List.find?_eq_none]
      intro l hl
      simpa using hno l hl
    simp [create_link, hst, htt, hnone]

/-- Witness for C3: duplicate triple on a two-term store is rejected and
the store is unchanged. -/
theorem create_link_error_handling_witness :
    (create_link
        ⟨[⟨1, "A", "a", "term"⟩, ⟨2, "B", "b", "term"⟩], [⟨1, 1, 2, "related"⟩], 3, 2⟩
        ⟨"A", "B", "related"⟩).1 = .error ⟨400, "Такая связь уже существует"⟩ ∧
    (create_link
        ⟨[⟨1, "A", "a", "term"⟩, ⟨2, "B", "b", "term"⟩], [⟨1, 1, 2, "related"⟩], 3, 2⟩
        ⟨"A", "B", "related"⟩).2 =
      ⟨[⟨1, "A", "a", "term"⟩, ⟨2, "B", "b", "term"⟩], [⟨1, 1, 2, "related"⟩], 3, 2⟩ :=
  ((create_link_error_handling
      ⟨[⟨1, "A", "a", "term"⟩, ⟨2, "B", "b", "term"⟩], [⟨1, 1, 2, "related"⟩], 3, 2⟩
      ⟨"A", "B", "related"⟩).2.2 ⟨1, "A", "a", "term"⟩ ⟨2, "B", "b", "term"⟩
      (by decide) (by decide)).1 ⟨⟨1, 1, 2, "related"⟩, by simp, rfl, rfl, rfl⟩

/-! ## C2: term deletion cascades to links -/

/-- **C2.** `delete_term` answers 404 when no term has the id and leaves
the store unchanged; otherwise it removes exactly that term and every
link whose `source_id` or `target_id` equals the id, and — on a store
satisfying referential integrity — every edge the graph projector shows
afterwards still has both endpoints among the projected nodes. -/
theorem delete_term_cascades :
    ∀ (db : DB) (i : Nat),
      ((∀ t ∈ db.terms, t.id ≠ i) →
        (delete_term db i).1 = .error ⟨404, "Термин не найден"⟩ ∧
        (delete_term db i).2 = db) ∧
      ((∃ t ∈ db.terms, t.id = i) →
        (delete_term db i).1 = .ok () ∧
        (∀ t : Term, t ∈ (delete_term db i).2.terms ↔ t ∈ db.terms ∧ t.id ≠ i) ∧
        (∀ l : Link, l ∈ (delete_term db i).2.links ↔
          l ∈ db.links ∧ l.source_id ≠ i ∧ l.target_id ≠ i) ∧
        (RefInt db →
          ∀ e ∈ (get_graph (delete_term db i).2).edges,
            (∃ n ∈ (get_graph (delete_term db i).2).nodes, n.id = e.source) ∧
            (∃ n ∈ (get_graph (delete_term db i).2).nodes, n.id = e.target))) := by
  intro db i
  constructor
  · intro habs
    have hnone : db.terms.find? (fun t => t.id == i) = none := by
      rw [List.find?_eq_none]
      intro t ht
      simpa using habs t ht
    simp [delete_term, hnone]
  · intro hex
    obtain ⟨t, ht, hid⟩ := hex
    have hsome : (db.terms.find? (fun t => t.id == i)).isSome := by
      rw [List.find?_isSome]
      exact ⟨t, ht, by simpa using hid⟩
    obtain ⟨t0, ht0⟩ := Option.isSome_iff_exists.mp hsome
    have hterms : ∀ u : Term, u ∈ (delete_term db i).2.terms ↔ u ∈ db.terms ∧ u.id ≠ i := by
      intro u
      simp [delete_term, ht0, List.mem_filter]
    have hlinks : ∀ l : Link, l ∈ (delete_term db i).2.links ↔
        l ∈ db.links ∧ l.source_id ≠ i ∧ l.target_id ≠ i := by
      intro l
      simp [delete_term, ht0, List.mem_filter, not_or]
    refine ⟨by simp [delete_term, ht0], hterms, hlinks, fun href e he => ?_⟩
    rw [get_graph] at he
    simp only [List.mem_map] at he
    obtain ⟨l, hl, rfl⟩ := he
    obtain ⟨hldb, hs, htg⟩ := (hlinks l).mp hl
    obtain ⟨⟨ts, hts, htsid⟩, ⟨tt, htt, httid⟩⟩ := href l hldb
    constructor
    · refine ⟨⟨toString ts.id, ts.term, ts.definition,
        if ts.node_type == "" then "term" else ts.node_type⟩, ?_, by simp [htsid]⟩
      rw [get_graph]
      simp only [List.mem_map]
      exact ⟨ts, (hterms ts).mpr ⟨hts, by omega⟩, rfl⟩
    · refine ⟨⟨toString tt.id, tt.term, tt.definition,
        if tt.node_type == "" then "term" else tt.node_type⟩, ?_, by simp [httid]⟩
      rw [get_graph]
      simp only [List.mem_map]
      exact ⟨tt, (hterms tt).mpr ⟨htt, by omega⟩, rfl⟩

/-- Witness for C2: deleting term 1 of the two-term store with one link
removes the link, and the remaining graph is self-contained. -/
theorem delete_term_cascades_witness :
    (delete_term
        ⟨[⟨1, "A", "a", "term"⟩, ⟨2, "B", "b", "term"⟩], [⟨1, 1, 2, "related"⟩], 3, 2⟩
        1).1 = .ok () ∧
    (⟨1, 1, 2, "related"⟩ : Link) ∉
      (delete_term
        ⟨[⟨1, "A", "a", "term"⟩, ⟨2, "B", "b", "term"⟩], [⟨1, 1, 2, "related"⟩], 3, 2⟩
        1).2.links := by
  have h := (delete_term_cascades
      ⟨[⟨1, "A", "a", "term"⟩, ⟨2, "B", "b", "term"⟩], [⟨1, 1, 2, "related"⟩], 3, 2⟩ 1).2
      ⟨⟨1, "A", "a", "term"⟩, by simp, rfl⟩
  refine ⟨h.1, fun hmem => ?_⟩
  have := (h.2.2.1 ⟨1, 1, 2, "related"⟩).mp hmem
  simp at this

/-! ## C1: name uniqueness under accepted create/rename sequences -/

theorem WF_empty : WF emptyDB := by
  simp [WF, emptyDB]

/-- Inserting a fresh row whose name is absent preserves well-formedness. -/
theorem WF_append (db : DB) (name defn nt : String)
    (h : WF db) (hname : ∀ t ∈ db.terms, t.term ≠ name) :
    WF { db with terms := db.terms ++ [⟨db.nextTermId, name, defn, nt⟩],
                 nextTermId := db.nextTermId + 1 } := by
  obtain ⟨hid, hbound, hnm, hlid, hlbound⟩ := h
  refine ⟨?_, ?_, ?_, hlid, hlbound⟩
  · rw [List.pairwise_append]
    refine ⟨hid, List.pairwise_singleton _ _, fun a ha b hb => ?_⟩
    simp only [List.mem_singleton] at hb
    subst hb
    exact Nat.ne_of_lt (hbound a ha)
  · intro t htm
    rcases List.mem_append.mp htm with h1 | h1
    · exact Nat.lt_succ_of_lt (hbound t h1)
    · simp only [List.mem_singleton] at h1
      subst h1
      exact Nat.lt_succ_self _
  · rw [List.pairwise_append]
    refine ⟨hnm, List.pairwise_singleton _ _, fun a ha b hb => ?_⟩
    simp only [List.mem_singleton] at hb
    subst hb
    exact hname a ha

/-- Replacing the row with id `i` by a row with the same id and a name
that collides with no other row preserves well-formedness. -/
theorem WF_replace (db : DB) (i : Nat) (t2 : Term)
    (h : WF db) (hid2 : t2.id = i)
    (hname2 : ∀ u ∈ db.terms, u.id ≠ i → u.term ≠ t2.term) :
    WF { db with terms := replaceById db.terms i (fun _ => t2) } := by
  obtain ⟨hid, hbound, hnm, hlid, hlbound⟩ := h
  have gid : ∀ u : Term, (if u.id == i then t2 else u).id = u.id := by
    intro u
    by_cases hc : u.id = i
    · simp [hc, hid2]
    · simp [hc]
  refine ⟨?_, ?_, ?_, hlid, hlbound⟩
  · rw [replaceById, List.pairwise_map]
    exact hid.imp (fun {a b} hab => by rw [gid, gid]; exact hab)
  · intro t htm
    rw [replaceById, List.mem_map] at htm
    obtain ⟨u, hu, rfl⟩ := htm
    rw [gid]
    exact hbound u hu
  · rw [replaceById, List.pairwise_map]
    refine ((hid.and hnm).imp_of_mem ?_)
    intro a b ha hb hab
    obtain ⟨haid, hanm⟩ := hab
    by_cases hca : a.id = i
    · have hcb : ¬ b.id = i := fun hcb => haid (hca.trans hcb.symm)
      simpa [hca, hcb] using (hname2 b hb hcb).symm
    · by_cases hcb : b.id = i
      · simpa [hca, hcb] using hname2 a ha hca
      · simpa [hca, hcb] using hanm

/-- `create_term` preserves well-formedness. -/
theorem create_term_WF (db : DB) (td : TermCreate) (h : WF db) :
    WF (create_term db td).2 := by
  cases hfind : db.terms.find? (fun t => t.term == td.term) with
  | some t => simpa [create_term, hfind] using h
  | none =>
      have habs := List.find?_eq_none.mp hfind
      have := WF_append db td.term td.definition "term" h
        (fun t ht => by simpa using habs t ht)
      simpa [create_term, hfind] using this

/-- `update_term` preserves well-formedness. -/
theorem update_term_WF (db : DB) (term_id : Nat) (tu : TermUpdate) (h : WF db) :
    WF (update_term db term_id tu).2 := by
  cases hfind : db.terms.find? (fun t => t.id == term_id) with
  | none => simpa [update_term, hfind] using h
  | some term =>
      have hmem : term ∈ db.terms := List.mem_of_find?_eq_some hfind
      have htid : term.id = term_id := by simpa using List.find?_some hfind
      cases hnn : tu.term with
      | some newName =>
          cases hcol : db.terms.find? (fun t => t.term == newName && t.id != term_id) with
          | some u => simpa [update_term, hfind, hnn, hcol] using h
          | none =>
              rw [List.find?_eq_none] at hcol
              have hname2 : ∀ u ∈ db.terms, u.id ≠ term_id → u.term ≠ newName := by
                intro u hu huid
                have := hcol u hu
                simp only [Bool.and_eq_true, beq_iff_eq, bne_iff_ne, ne_eq, not_and] at this
                intro hc
                exact (this hc) huid
              cases hd : tu.definition with
              | some d =>
                  have := WF_replace db term_id
                    ⟨term.id, newName, d, term.node_type⟩ h htid
                    (fun u hu huid => hname2 u hu huid)
                  simpa [update_term, hfind, hnn, hd,
                    List.find?_eq_none.mpr hcol] using this
              | none =>
                  have := WF_replace db term_id
                    ⟨term.id, newName, term.definition, term.node_type⟩ h htid
                    (fun u hu huid => hname2 u hu huid)
                  simpa [update_term, hfind, hnn, hd,
                    List.find?_eq_none.mpr hcol] using this
      | none =>
          have hname2 : ∀ u ∈ db.terms, u.id ≠ term_id → u.term ≠ term.term := by
            intro u hu huid hc
            exact huid ((eq_of_pairwise_key h.2.2.1 hu hmem hc) ▸ htid)
          cases hd : tu.definition with
          | some d =>
              have := WF_replace db term_id
                ⟨term.id, term.term, d, term.node_type⟩ h htid
                (fun u hu huid => hname2 u hu huid)
              simpa [update_term, hfind, hnn, hd] using this
          | none =>
              have := WF_replace db term_id
                ⟨term.id, term.term, term.definition, term.node_type⟩ h htid
                (fun u hu huid => hname2 u hu huid)
              simpa [update_term, hfind, hnn, hd] using this

/-- Every accepted request preserves well-formedness. -/
theorem applyOp_WF (db db' : DB) (op : Op) (h : WF db) (hrun : applyOp db op = .ok db') :
    WF db' := by
  cases op with
  | add td =>
      have := create_term_WF db td h
      rw [applyOp] at hrun
      cases hc : (create_term db td) with
      | mk r db2 =>
          rw [hc] at hrun this
          cases r with
          | ok t => simp at hrun; exact hrun ▸ this
          | error e => simp at hrun
  | upd i tu =>
      have := update_term_WF db i tu h
      rw [applyOp] at hrun
      cases hc : (update_term db i tu) with
      | mk r db2 =>
          rw [hc] at hrun this
          cases r with
          | ok t => simp at hrun; exact hrun ▸ this
          | error e => simp at hrun

/-- An accepted sequence of requests preserves well-formedness. -/
theorem runOps_WF (ops : List Op) (db db' : DB) (h : WF db)
    (hrun : runOps db ops = .ok db') : WF db' := by
  induction ops generalizing db with
  | nil => rw [runOps] at hrun; cases hrun; exact h
  | cons op rest ih =>
      rw [runOps] at hrun
      cases hap : applyOp db op with
      | ok db1 =>
          rw [hap] at hrun
          exact ih db1 (applyOp_WF db db1 op h hap) hrun
      | error e => rw [hap] at hrun; cases hrun

/-- **C1.** Any sequence of `addTerm` / `updateTerm` requests that the
store accepts leaves the term names pairwise distinct. -/
theorem accepted_ops_names_unique (ops : List Op) (db : DB)
    (h : runOps emptyDB ops = .ok db) :
    db.terms.Pairwise (fun a b => a.term ≠ b.term) :=
  (runOps_WF ops emptyDB db WF_empty h).2.2.1

/-- Witness for C1: a create followed by a rename is accepted and the
resulting names are pairwise distinct. -/
theorem accepted_ops_names_unique_witness :
    (⟨[⟨1, "B", "a", "term"⟩], [], 2, 1⟩ : DB).terms.Pairwise
      (fun a b => a.term ≠ b.term) :=
  accepted_ops_names_unique
    [Op.add ⟨"A", "a", "term"⟩, Op.upd 1 ⟨some "B", none, none⟩]
    ⟨[⟨1, "B", "a", "term"⟩], [], 2, 1⟩ (by rfl)

/-! ## C7: per-record behavior of the relation import -/

/-- **C7.** For each relation row: a missing endpoint name makes the row a
skipped-with-warning record and processing continues with the remaining
rows; an already existing (source, target, relation) triple makes the row
a no-op; otherwise the link is created.  In the scenario of the spec,
`[("X","rel","Y")]` on the empty store reports one skipped row, and after
`addTerm("X")` and `addTerm("Y")` the same input creates the link and
reports one created row, zero skipped. -/
theorem import_links_per_record :
    (∀ (db : DB) (row : LinkRow) (rest : List LinkRow),
      (∀ t ∈ db.terms, t.term ≠ row.source) ∨ (∀ t ∈ db.terms, t.term ≠ row.target) →
        import_links (row :: rest) db =
          ((import_links rest db).1, (import_links rest db).2.1,
            (import_links rest db).2.2 + 1)) ∧
    (∀ (db : DB) (row : LinkRow) (rest : List LinkRow) (st tt : Term),
      db.terms.find? (fun t => t.term == row.source) = some st →
      db.terms.find? (fun t => t.term == row.target) = some tt →
      ((∃ l ∈ db.links,
          l.source_id = st.id ∧ l.target_id = tt.id ∧ l.relation = row.relation) →
        import_links (row :: rest) db = import_links rest db) ∧
      ((∀ l ∈ db.links,
          ¬(l.source_id = st.id ∧ l.target_id = tt.id ∧ l.relation = row.relation)) →
        (⟨db.nextLinkId, st.id, tt.id, row.relation⟩ : Link) ∈
          (import_links (row :: rest) db).1.links ∧
        (import_links (row :: rest) db).2.1 = (import_links rest db).2.1 + 1)) ∧
    import_links [⟨"X", "Y", "rel"⟩] emptyDB = (emptyDB, 0, 1) ∧
    import_links [⟨"X", "Y", "rel"⟩]
        (create_term (create_term emptyDB ⟨"X", "x", "term"⟩).2 ⟨"Y", "y", "term"⟩).2 =
      (⟨[⟨1, "X", "x", "term"⟩, ⟨2, "Y", "y", "term"⟩], [⟨1, 1, 2, "rel"⟩], 3, 2⟩, 1, 0) := by
  refine ⟨fun db row rest hmiss => ?_,
    fun db row rest st tt hst htt => ⟨fun hdup => ?_, fun hno => ?_⟩,
    by decide, by decide⟩
  · have hstep : importLinksLoop db.terms db.links (row :: rest) =
        { importLinksLoop db.terms db.links rest with
          skipped := (importLinksLoop db.terms db.links rest).skipped + 1 } := by
      rcases hmiss with hmiss | hmiss
      · have hnone : db.terms.find? (fun t => t.term == row.source) = none := by
          rw [List.find?_eq_none]
          intro t ht
          simpa using hmiss t ht
        simp [importLinksLoop, hnone]
      · have hnone : db.terms.find? (fun t => t.term == row.target) = none := by
          rw [List.find?_eq_none]
          intro t ht
          simpa using hmiss t ht
        cases hsrc : db.terms.find? (fun t => t.term == row.source) with
        | none => simp [importLinksLoop, hsrc]
        | some st => simp [importLinksLoop, hsrc, hnone]
    simp [import_links, hstep]
  · obtain ⟨l, hl, h1, h2, h3⟩ := hdup
    have hsome : (db.links.find? (fun l =>
        l.source_id == st.id && l.target_id == tt.id && l.relation == row.relation)).isSome := by
      rw [List.find?_isSome]
      exact ⟨l, hl, by simp [h1, h2, h3]⟩
    obtain ⟨l', hl'⟩ := Option.isSome_iff_exists.mp hsome
    have hstep : importLinksLoop db.terms db.links (row :: rest) =
        importLinksLoop db.terms db.links rest := by
      simp [importLinksLoop, hst, htt, hl']
    simp [import_links, hstep]
  · have hnone : db.links.find? (fun l =>
        l.source_id == st.id && l.target_id == tt.id && l.relation == row.relation) = none := by
      rw [List.find?_eq_none]
      intro l hl
      simpa using hno l hl
    have hstep : importLinksLoop db.terms db.links (row :: rest) =
        { importLinksLoop db.terms db.links rest with
          pending := (st.id, tt.id, row.relation) ::
            (importLinksLoop db.terms db.links rest).pending,
          created := (importLinksLoop db.terms db.links rest).created + 1 } := by
      simp [importLinksLoop, hst, htt, hnone]
    constructor
    · simp [import_links, hstep, assignLinkIds]
    · simp [import_links, hstep]

/-- Witness for C7: the missing-endpoint case at the concrete scenario
input. -/
theorem import_links_per_record_witness :
    import_links [⟨"X", "Y", "rel"⟩] emptyDB =
      ((import_links [] emptyDB).1, (import_links [] emptyDB).2.1,
        (import_links [] emptyDB).2.2 + 1) :=
  import_links_per_record.1 emptyDB ⟨"X", "Y", "rel"⟩ []
    (Or.inl (fun t ht => by simp [emptyDB] at ht))

/-! ## C6: idempotence of the full reconciliation -/

/-- The session term-pass only mutates definitions and node types, so the
(id, name) projection of the object list is an invariant; these transport
lemmas move pairwise-distinctness and name-membership across it. -/
theorem map_term_of_map_key_eq {l l' : List Term}
    (h : l'.map (fun t => (t.id, t.term)) = l.map (fun t => (t.id, t.term))) :
    l'.map Term.term = l.map Term.term := by
  have := congrArg (List.map Prod.snd) h
  simpa [List.map_map, Function.comp] using this

theorem map_id_of_map_key_eq {l l' : List Term}
    (h : l'.map (fun t => (t.id, t.term)) = l.map (fun t => (t.id, t.term))) :
    l'.map Term.id = l.map Term.id := by
  have := congrArg (List.map Prod.fst) h
  simpa [List.map_map, Function.comp] using this

theorem pairwise_id_of_map_key_eq {l l' : List Term}
    (h : l'.map (fun t => (t.id, t.term)) = l.map (fun t => (t.id, t.term)))
    (hp : l.Pairwise (fun a b => a.id ≠ b.id)) :
    l'.Pairwise (fun a b => a.id ≠ b.id) := by
  have h1 : (l.map Term.id).Pairwise (fun a b => a ≠ b) :=
    List.pairwise_map.mpr hp
  rw [← map_id_of_map_key_eq h] at h1
  exact List.pairwise_map.mp h1

theorem pairwise_term_of_map_key_eq {l l' : List Term}
    (h : l'.map (fun t => (t.id, t.term)) = l.map (fun t => (t.id, t.term)))
    (hp : l.Pairwise (fun a b => a.term ≠ b.term)) :
    l'.Pairwise (fun a b => a.term ≠ b.term) := by
  have h1 : (l.map Term.term).Pairwise (fun a b => a ≠ b) :=
    List.pairwise_map.mpr hp
  rw [← map_term_of_map_key_eq h] at h1
  exact List.pairwise_map.mp h1

/-- Replacing a row by one with the same id and name fixes the (id, name)
projection. -/
theorem replaceById_map_key (objs : List Term) (existing e2 : Term)
    (hid : objs.Pairwise (fun a b => a.id ≠ b.id)) (hmem : existing ∈ objs)
    (hid2 : e2.id = existing.id) (hterm2 : e2.term = existing.term) :
    (replaceById objs existing.id (fun _ => e2)).map (fun t => (t.id, t.term)) =
      objs.map (fun t => (t.id, t.term)) := by
  rw [replaceById, List.map_map]
  refine List.map_congr_left ?_
  intro t ht
  by_cases hc : t.id = existing.id
  · have hte : t = existing := eq_of_pairwise_key hid ht hmem hc
    subst hte
    simp [Function.comp, hid2, hterm2]
  · simp [Function.comp, hc]

/-- `sessionUpdate` characterized: a no-op when the object already agrees
with the row, otherwise the dirtied object carrying the row's definition
and node type. -/
theorem sessionUpdate_eq (existing : Term) (row : TermRow) :
    sessionUpdate existing row =
      if existing.definition = row.definition ∧
          existing.node_type = get_node_type row.term
      then (existing, false)
      else (⟨existing.id, existing.term, row.definition, get_node_type row.term⟩, true) := by
  by_cases hdef : existing.definition = row.definition
  · by_cases htype : existing.node_type = get_node_type row.term
    · simp [sessionUpdate, hdef, htype]
    · rw [if_neg (fun hc => htype hc.2)]
      simp [sessionUpdate, hdef, htype]
  · rw [if_neg (fun hc => hdef hc.1)]
    by_cases htype : existing.node_type = get_node_type row.term
    · simp [sessionUpdate, hdef, htype]
    · simp [sessionUpdate, hdef, htype]

/-- Flush-assigned primary keys do not change the other columns. -/
theorem assignIds_map_term (next : Nat) (ins : List Term) :
    (assignIds next ins).map Term.term = ins.map Term.term := by
  induction ins generalizing next with
  | nil => rfl
  | cons u us ih => simp [assignIds, ih]

theorem assignIds_id_bounds (next : Nat) (ins : List Term) :
    ∀ t ∈ assignIds next ins, next ≤ t.id ∧ t.id < next + ins.length := by
  induction ins generalizing next with
  | nil => simp [assignIds]
  | cons u us ih =>
      intro t htm
      rw [assignIds] at htm
      rcases List.mem_cons.mp htm with rfl | h
      · simp only [List.length_cons]
        omega
      · have := ih (next + 1) t h
        simp only [List.length_cons]
        omega

theorem assignIds_pairwise (next : Nat) (ins : List Term) :
    (assignIds next ins).Pairwise (fun a b => a.id ≠ b.id) := by
  induction ins generalizing next with
  | nil => simp [assignIds]
  | cons u us ih =>
      rw [assignIds, List.pairwise_cons]
      refine ⟨fun b hb => ?_, ih (next + 1)⟩
      have := assignIds_id_bounds (next + 1) us b hb
      simp only []
      omega

theorem mem_assignIds (next : Nat) (ins : List Term) (u : Term) (hu : u ∈ ins) :
    ∃ t ∈ assignIds next ins, t.term = u.term ∧ t.definition = u.definition ∧
      t.node_type = u.node_type := by
  induction ins generalizing next with
  | nil => cases hu
  | cons v vs ih =>
      rcases List.mem_cons.mp hu with rfl | h
      · exact ⟨⟨next, u.term, u.definition, u.node_type⟩, by simp [assignIds], rfl, rfl, rfl⟩
      · obtain ⟨t, htm, h2⟩ := ih (next + 1) h
        exact ⟨t, by simp [assignIds, htm], h2⟩

/-- The term pass never changes an id or a name of a session object. -/
theorem importTermsLoop_keys (rows : List TermRow) (objs ins : List Term)
    (hid : objs.Pairwise (fun a b => a.id ≠ b.id)) :
    ((importTermsLoop rows objs ins).objs).map (fun t => (t.id, t.term)) =
      objs.map (fun t => (t.id, t.term)) := by
  induction rows generalizing objs ins with
  | nil => rfl
  | cons row rest ih =>
      cases hfind : objs.find? (fun t => t.term == row.term) with
      | none =>
          simp only [importTermsLoop, hfind]
          exact ih objs _ hid
      | some existing =>
          have hmem : existing ∈ objs := List.mem_of_find?_eq_some hfind
          by_cases hok : existing.definition = row.definition ∧
              existing.node_type = get_node_type row.term
          · have hsess : sessionUpdate existing row = (existing, false) := by
              rw [sessionUpdate_eq, if_pos hok]
            simp only [importTermsLoop, hfind, hsess]
            exact ih objs ins hid
          · have hsess : sessionUpdate existing row =
                (⟨existing.id, existing.term, row.definition, get_node_type row.term⟩,
                 true) := by
              rw [sessionUpdate_eq, if_neg hok]
            have hrep := replaceById_map_key objs existing
              ⟨existing.id, existing.term, row.definition, get_node_type row.term⟩
              hid hmem rfl rfl
            simp only [importTermsLoop, hfind, hsess]
            rw [ih _ ins (pairwise_id_of_map_key_eq hrep hid), hrep]

/-- A session object whose name no remaining row carries survives the
term pass untouched. -/
theorem importTermsLoop_preserves (rows : List TermRow) (objs ins : List Term)
    (t : Term) (hid : objs.Pairwise (fun a b => a.id ≠ b.id)) (ht : t ∈ objs)
    (hne : ∀ r ∈ rows, r.term ≠ t.term) :
    t ∈ (importTermsLoop rows objs ins).objs := by
  induction rows generalizing objs ins with
  | nil => exact ht
  | cons row rest ih =>
      cases hfind : objs.find? (fun u => u.term == row.term) with
      | none =>
          simp only [importTermsLoop, hfind]
          exact ih objs _ hid ht (fun r hr => hne r (by simp [hr]))
      | some existing =>
          have hmem : existing ∈ objs := List.mem_of_find?_eq_some hfind
          have hename : existing.term = row.term := by simpa using List.find?_some hfind
          by_cases hok : existing.definition = row.definition ∧
              existing.node_type = get_node_type row.term
          · have hsess : sessionUpdate existing row = (existing, false) := by
              rw [sessionUpdate_eq, if_pos hok]
            simp only [importTermsLoop, hfind, hsess]
            exact ih objs ins hid ht (fun r hr => hne r (by simp [hr]))
          · have hsess : sessionUpdate existing row =
                (⟨existing.id, existing.term, row.definition, get_node_type row.term⟩,
                 true) := by
              rw [sessionUpdate_eq, if_neg hok]
            have hrep := replaceById_map_key objs existing
              ⟨existing.id, existing.term, row.definition, get_node_type row.term⟩
              hid hmem rfl rfl
            have htne : t ≠ existing := by
              intro hc
              exact hne row (by simp) (by rw [← hename, ← hc])
            have hidne : t.id ≠ existing.id :=
              fun hc => htne (eq_of_pairwise_key hid ht hmem hc)
            have ht' : t ∈ replaceById objs existing.id (fun _ =>
                ⟨existing.id, existing.term, row.definition, get_node_type row.term⟩) := by
              simp only [replaceById, List.mem_map]
              exact ⟨t, ht, by simp [hidne]⟩
            simp only [importTermsLoop, hfind, hsess]
            exact ih _ ins (pairwise_id_of_map_key_eq hrep hid) ht'
              (fun r hr => hne r (by simp [hr]))

/-- The pending inserts of a term pass: appended to the incoming ones,
named after input rows, never colliding with a session object, and—for
an input batch with pairwise distinct names—pairwise distinct. -/
theorem importTermsLoop_ins (rows : List TermRow) (objs ins : List Term)
    (hid : objs.Pairwise (fun a b => a.id ≠ b.id)) :
    ∃ newIns, (importTermsLoop rows objs ins).ins = ins ++ newIns ∧
      (∀ t ∈ newIns, t.term ∈ rows.map TermRow.term ∧ t.term ∉ objs.map Term.term) ∧
      (rows.Pairwise (fun a b => a.term ≠ b.term) → (newIns.map Term.term).Nodup) := by
  induction rows generalizing objs ins with
  | nil => exact ⟨[], by simp [importTermsLoop], by simp, by simp⟩
  | cons row rest ih =>
      cases hfind : objs.find? (fun t => t.term == row.term) with
      | none =>
          obtain ⟨newIns', h1, h2, h3⟩ :=
            ih objs (ins ++ [⟨0, row.term, row.definition, get_node_type row.term⟩]) hid
          have habs : row.term ∉ objs.map Term.term := by
            rw [List.mem_map]
            rintro ⟨u, hu, hc⟩
            exact absurd (by simpa using hc) (by simpa using List.find?_eq_none.mp hfind u hu)
          refine ⟨⟨0, row.term, row.definition, get_node_type row.term⟩ :: newIns', ?_, ?_, ?_⟩
          · simp only [importTermsLoop, hfind]
            rw [h1]
            simp [List.append_assoc]
          · intro t htm
            rcases List.mem_cons.mp htm with rfl | htm'
            · exact ⟨by simp, habs⟩
            · exact ⟨by simp [(h2 t htm').1], (h2 t htm').2⟩
          · intro hdist
            rw [List.pairwise_cons] at hdist
            rw [List.map_cons, List.nodup_cons]
            refine ⟨?_, h3 hdist.2⟩
            rw [List.mem_map]
            rintro ⟨t, htm, hc⟩
            have hmm := (h2 t htm).1
            rw [List.mem_map] at hmm
            obtain ⟨r, hr, hrt⟩ := hmm
            exact hdist.1 r hr (hrt.trans hc).symm
      | some existing =>
          have hmem : existing ∈ objs := List.mem_of_find?_eq_some hfind
          by_cases hok : existing.definition = row.definition ∧
              existing.node_type = get_node_type row.term
          · have hsess : sessionUpdate existing row = (existing, false) := by
              rw [sessionUpdate_eq, if_pos hok]
            obtain ⟨newIns', h1, h2, h3⟩ := ih objs ins hid
            refine ⟨newIns', ?_, ?_, ?_⟩
            · simp only [importTermsLoop, hfind, hsess]
              exact h1
            · exact fun t htm => ⟨by simp [(h2 t htm).1], (h2 t htm).2⟩
            · intro hdist
              rw [List.pairwise_cons] at hdist
              exact h3 hdist.2
          · have hsess : sessionUpdate existing row =
                (⟨existing.id, existing.term, row.definition, get_node_type row.term⟩,
                 true) := by
              rw [sessionUpdate_eq, if_neg hok]
            have hrep := replaceById_map_key objs existing
              ⟨existing.id, existing.term, row.definition, get_node_type row.term⟩
              hid hmem rfl rfl
            obtain ⟨newIns', h1, h2, h3⟩ :=
              ih _ ins (pairwise_id_of_map_key_eq hrep hid)
            refine ⟨newIns', ?_, ?_, ?_⟩
            · simp only [importTermsLoop, hfind, hsess]
              exact h1
            · intro t htm
              refine ⟨by simp [(h2 t htm).1], ?_⟩
              rw [← map_term_of_map_key_eq hrep]
              exact (h2 t htm).2
            · intro hdist
              rw [List.pairwise_cons] at hdist
              exact h3 hdist.2

/-- Every row of a distinct-name batch ends the term pass settled, either
among the session objects or among the pending inserts. -/
theorem importTermsLoop_settles (rows : List TermRow) (objs ins : List Term)
    (hid : objs.Pairwise (fun a b => a.id ≠ b.id))
    (hdist : rows.Pairwise (fun a b => a.term ≠ b.term)) :
    ∀ row ∈ rows,
      settledRow (importTermsLoop rows objs ins).objs row ∨
      settledRow (importTermsLoop rows objs ins).ins row := by
  induction rows generalizing objs ins with
  | nil => simp
  | cons row rest ih =>
      rw [List.pairwise_cons] at hdist
      intro r hr
      rcases List.mem_cons.mp hr with rfl | hr'
      · cases hfind : objs.find? (fun t => t.term == r.term) with
        | none =>
            right
            simp only [importTermsLoop, hfind]
            obtain ⟨newIns', h1, _, _⟩ :=
              importTermsLoop_ins rest objs
                (ins ++ [⟨0, r.term, r.definition, get_node_type r.term⟩]) hid
            refine ⟨⟨0, r.term, r.definition, get_node_type r.term⟩, ?_, rfl, rfl, rfl⟩
            rw [h1]
            simp
        | some existing =>
            have hmem : existing ∈ objs := List.mem_of_find?_eq_some hfind
            have hename : existing.term = r.term := by simpa using List.find?_some hfind
            by_cases hok : existing.definition = r.definition ∧
                existing.node_type = get_node_type r.term
            · left
              have hsess : sessionUpdate existing r = (existing, false) := by
                rw [sessionUpdate_eq, if_pos hok]
              simp only [importTermsLoop, hfind, hsess]
              exact ⟨existing,
                importTermsLoop_preserves rest objs ins existing hid hmem
                  (fun r2 hr2 => by rw [hename]; exact (hdist.1 r2 hr2).symm),
                hename, hok.1, hok.2⟩
            · left
              have hsess : sessionUpdate existing r =
                  (⟨existing.id, existing.term, r.definition, get_node_type r.term⟩,
                   true) := by
                rw [sessionUpdate_eq, if_neg hok]
              have hrep := replaceById_map_key objs existing
                ⟨existing.id, existing.term, r.definition, get_node_type r.term⟩
                hid hmem rfl rfl
              have he2mem :
                  (⟨existing.id, existing.term, r.definition, get_node_type r.term⟩ : Term) ∈
                    replaceById objs existing.id (fun _ =>
                      ⟨existing.id, existing.term, r.definition, get_node_type r.term⟩) := by
                simp only [replaceById, List.mem_map]
                exact ⟨existing, hmem, by simp⟩
              simp only [importTermsLoop, hfind, hsess]
              refine ⟨⟨existing.id, existing.term, r.definition, get_node_type r.term⟩,
                importTermsLoop_preserves rest _ ins _
                  (pairwise_id_of_map_key_eq hrep hid) he2mem (fun r2 hr2 => ?_),
                hename, rfl, rfl⟩
              show r2.term ≠ existing.term
              rw [hename]
              exact (hdist.1 r2 hr2).symm
      · cases hfind : objs.find? (fun t => t.term == row.term) with
        | none =>
            simp only [importTermsLoop, hfind]
            exact ih objs _ hid hdist.2 r hr'
        | some existing =>
            have hmem : existing ∈ objs := List.mem_of_find?_eq_some hfind
            by_cases hok : existing.definition = row.definition ∧
                existing.node_type = get_node_type row.term
            · have hsess : sessionUpdate existing row = (existing, false) := by
                rw [sessionUpdate_eq, if_pos hok]
              simp only [importTermsLoop, hfind, hsess]
              exact ih objs ins hid hdist.2 r hr'
            · have hsess : sessionUpdate existing row =
                  (⟨existing.id, existing.term, row.definition, get_node_type row.term⟩,
                   true) := by
                rw [sessionUpdate_eq, if_neg hok]
              have hrep := replaceById_map_key objs existing
                ⟨existing.id, existing.term, row.definition, get_node_type row.term⟩
                hid hmem rfl rfl
              simp only [importTermsLoop, hfind, hsess]
              exact ih _ ins (pairwise_id_of_map_key_eq hrep hid) hdist.2 r hr'

/-- A settled term table makes the whole pass a reported no-op. -/
theorem importTermsLoop_noop (rows : List TermRow) (objs ins : List Term)
    (hnm : objs.Pairwise (fun a b => a.term ≠ b.term))
    (h : ∀ row ∈ rows, settledRow objs row) :
    importTermsLoop rows objs ins = ⟨objs, ins, 0, 0, rows.length⟩ := by
  induction rows with
  | nil => rfl
  | cons row rest ih =>
      obtain ⟨t, ht, h1, h2, h3⟩ := h row (by simp)
      have hsome : (objs.find? (fun u => u.term == row.term)).isSome := by
        rw [List.find?_isSome]
        exact ⟨t, ht, by simpa using h1⟩
      obtain ⟨existing, hfind⟩ := Option.isSome_iff_exists.mp hsome
      have hename : existing.term = row.term := by simpa using List.find?_some hfind
      have hmem : existing ∈ objs := List.mem_of_find?_eq_some hfind
      have het : existing = t := eq_of_pairwise_key hnm hmem ht (hename.trans h1.symm)
      subst het
      have hsess : sessionUpdate existing row = (existing, false) := by
        rw [sessionUpdate_eq, if_pos ⟨h2, h3⟩]
      simp only [importTermsLoop, hfind, hsess]
      rw [ih (fun r hr => h r (by simp [hr]))]
      simp [Nat.add_comm]

/-- A term pass over a well-formed store and a distinct-name batch
commits successfully, preserves well-formedness, leaves the link table
alone and settles every row. -/
theorem import_terms_ok (rows : List TermRow) (db : DB)
    (hWF : WF db) (hdist : rows.Pairwise (fun a b => a.term ≠ b.term)) :
    ∃ db1 c u n, import_terms rows db = .ok (db1, c, u, n) ∧
      WF db1 ∧ db1.links = db.links ∧ db1.nextLinkId = db.nextLinkId ∧
      ∀ row ∈ rows, settledRow db1.terms row := by
  obtain ⟨hid, hbound, hnm, hlid, hlbound⟩ := hWF
  have hkeys := importTermsLoop_keys rows db.terms [] hid
  obtain ⟨newIns, hins, hprops, hnodup⟩ := importTermsLoop_ins rows db.terms [] hid
  rw [List.nil_append] at hins
  have hterm_eq : (importTermsLoop rows db.terms []).objs.map Term.term =
      db.terms.map Term.term := map_term_of_map_key_eq hkeys
  have hid' := pairwise_id_of_map_key_eq hkeys hid
  have hnm' := pairwise_term_of_map_key_eq hkeys hnm
  have hobj_id : ∀ t ∈ (importTermsLoop rows db.terms []).objs, t.id < db.nextTermId := by
    intro t htm
    have : t.id ∈ (importTermsLoop rows db.terms []).objs.map Term.id :=
      List.mem_map_of_mem _ htm
    rw [map_id_of_map_key_eq hkeys, List.mem_map] at this
    obtain ⟨u, hu, huid⟩ := this
    exact huid ▸ hbound u hu
  have hins_not_obj : ∀ t ∈ (importTermsLoop rows db.terms []).ins,
      t.term ∉ (importTermsLoop rows db.terms []).objs.map Term.term := by
    intro t htm
    rw [hterm_eq]
    exact (hprops t (by rwa [hins] at htm)).2
  have hcond : ((importTermsLoop rows db.terms []).ins.map Term.term).Nodup ∧
      ∀ n ∈ (importTermsLoop rows db.terms []).ins.map Term.term,
        n ∉ (importTermsLoop rows db.terms []).objs.map Term.term := by
    constructor
    · rw [hins]
      exact hnodup hdist
    · intro n hn
      rw [List.mem_map] at hn
      obtain ⟨t, htm, rfl⟩ := hn
      exact hins_not_obj t htm
  refine ⟨⟨(importTermsLoop rows db.terms []).objs ++
        assignIds db.nextTermId (importTermsLoop rows db.terms []).ins, db.links,
        db.nextTermId + (importTermsLoop rows db.terms []).ins.length, db.nextLinkId⟩,
    (importTermsLoop rows db.terms []).created,
    (importTermsLoop rows db.terms []).updated,
    (importTermsLoop rows db.terms []).unchanged,
    by rw [import_terms]; rw [if_pos hcond], ?_, rfl, rfl, ?_⟩
  · refine ⟨?_, ?_, ?_, hlid, hlbound⟩
    · rw [List.pairwise_append]
      refine ⟨hid', assignIds_pairwise _ _, fun a ha b hb => ?_⟩
      have h1 := hobj_id a ha
      have h2 := (assignIds_id_bounds _ _ b hb).1
      omega
    · intro t htm
      rcases List.mem_append.mp htm with h1 | h1
      · have := hobj_id t h1
        simp only []
        omega
      · have := (assignIds_id_bounds _ _ t h1).2
        simpa using this
    · rw [List.pairwise_append]
      refine ⟨hnm', ?_, fun a ha b hb => ?_⟩
      · have h1 : ((assignIds db.nextTermId
            (importTermsLoop rows db.terms []).ins).map Term.term).Pairwise (· ≠ ·) := by
          rw [assignIds_map_term, hins]
          exact hnodup hdist
        exact List.pairwise_map.mp h1
      · intro hc
        have hbm : b.term ∈ (assignIds db.nextTermId
            (importTermsLoop rows db.terms []).ins).map Term.term :=
          List.mem_map_of_mem _ hb
        rw [assignIds_map_term] at hbm
        rw [List.mem_map] at hbm
        obtain ⟨t, htm, htb⟩ := hbm
        apply hins_not_obj t htm
        rw [htb, ← hc]
        exact List.mem_map_of_mem _ ha
  · intro row hrow
    rcases importTermsLoop_settles rows db.terms [] hid hdist row hrow with
      ⟨t, htm, h1, h2, h3⟩ | ⟨t, htm, h1, h2, h3⟩
    · exact ⟨t, List.mem_append_left _ htm, h1, h2, h3⟩
    · obtain ⟨u, hum, hu1, hu2, hu3⟩ := mem_assignIds db.nextTermId _ t htm
      exact ⟨u, List.mem_append_right _ hum, hu1.trans h1, hu2.trans h2, hu3.trans h3⟩

/-- A fully settled store makes the whole term pass a committed no-op. -/
theorem import_terms_settled_noop (rows : List TermRow) (db : DB)
    (hnm : db.terms.Pairwise (fun a b => a.term ≠ b.term))
    (h : ∀ row ∈ rows, settledRow db.terms row) :
    import_terms rows db = .ok (db, 0, 0, rows.length) := by
  have hloop := importTermsLoop_noop rows db.terms [] hnm h
  rw [import_terms, hloop]
  simp [assignIds]

/-! ### Link phase -/

/-- Skipping or accepting a head row only extends the pending inserts. -/
theorem importLinksLoop_pending_mono (terms : List Term) (links : List Link)
    (row : LinkRow) (rest : List LinkRow) :
    ∀ p ∈ (importLinksLoop terms links rest).pending,
      p ∈ (importLinksLoop terms links (row :: rest)).pending := by
  intro p hp
  cases hsrc : terms.find? (fun t => t.term == row.source) with
  | none => simpa [importLinksLoop, hsrc] using hp
  | some st =>
      cases htgt : terms.find? (fun t => t.term == row.target) with
      | none => simpa [importLinksLoop, hsrc, htgt] using hp
      | some tt =>
          cases hdup : links.find? (fun l =>
              l.source_id == st.id && l.target_id == tt.id &&
              l.relation == row.relation) with
          | some l => simpa [importLinksLoop, hsrc, htgt, hdup] using hp
          | none =>
              simp only [importLinksLoop, hsrc, htgt, hdup]
              exact List.mem_cons_of_mem _ hp

/-- After a link pass, every row is settled: an endpoint is missing, or
its triple was already committed, or its triple is among the pending
inserts. -/
theorem importLinksLoop_settles (terms : List Term) (links : List Link)
    (rows : List LinkRow) :
    ∀ row ∈ rows,
      (∀ t ∈ terms, t.term ≠ row.source) ∨
      (∀ t ∈ terms, t.term ≠ row.target) ∨
      (∃ st ∈ terms, ∃ tt ∈ terms, st.term = row.source ∧ tt.term = row.target ∧
        ((∃ l ∈ links, l.source_id = st.id ∧ l.target_id = tt.id ∧
            l.relation = row.relation) ∨
         (st.id, tt.id, row.relation) ∈ (importLinksLoop terms links rows).pending)) := by
  induction rows with
  | nil => simp
  | cons row rest ih =>
      intro r hr
      rcases List.mem_cons.mp hr with rfl | hr'
      · cases hsrc : terms.find? (fun t => t.term == r.source) with
        | none =>
            exact .inl (fun t ht => by simpa using List.find?_eq_none.mp hsrc t ht)
        | some st =>
            cases htgt : terms.find? (fun t => t.term == r.target) with
            | none =>
                exact .inr (.inl (fun t ht => by
                  simpa using List.find?_eq_none.mp htgt t ht))
            | some tt =>
                have hstm : st ∈ terms := List.mem_of_find?_eq_some hsrc
                have httm : tt ∈ terms := List.mem_of_find?_eq_some htgt
                have hstn : st.term = r.source := by simpa using List.find?_some hsrc
                have httn : tt.term = r.target := by simpa using List.find?_some htgt
                cases hdup : links.find? (fun l =>
                    l.source_id == st.id && l.target_id == tt.id &&
                    l.relation == r.relation) with
                | some l =>
                    have hlm : l ∈ links := List.mem_of_find?_eq_some hdup
                    have hlp := List.find?_some hdup
                    simp only [Bool.and_eq_true, beq_iff_eq] at hlp
                    exact .inr (.inr ⟨st, hstm, tt, httm, hstn, httn,
                      .inl ⟨l, hlm, hlp.1.1, hlp.1.2, hlp.2⟩⟩)
                | none =>
                    refine .inr (.inr ⟨st, hstm, tt, httm, hstn, httn, .inr ?_⟩)
                    simp only [importLinksLoop, hsrc, htgt, hdup]
                    exact List.mem_cons_self _ _
      · rcases ih r hr' with h | h | ⟨st, hst, tt, htt, h1, h2, h3 | hpend⟩
        · exact .inl h
        · exact .inr (.inl h)
        · exact .inr (.inr ⟨st, hst, tt, htt, h1, h2, .inl h3⟩)
        · exact .inr (.inr ⟨st, hst, tt, htt, h1, h2,
            .inr (importLinksLoop_pending_mono terms links row rest _ hpend)⟩)

/-- A settled store makes the link pass pend nothing and create
nothing. -/
theorem importLinksLoop_noop (terms : List Term) (links : List Link)
    (rows : List LinkRow)
    (hnm : terms.Pairwise (fun a b => a.term ≠ b.term))
    (h : ∀ row ∈ rows, linkRowSettled terms links row) :
    (importLinksLoop terms links rows).pending = [] ∧
    (importLinksLoop terms links rows).created = 0 := by
  induction rows with
  | nil => exact ⟨rfl, rfl⟩
  | cons row rest ih =>
      obtain ⟨g1, g2⟩ := ih (fun r hr => h r (by simp [hr]))
      rcases h row (by simp) with hm | hm | ⟨st, hst, tt, htt, h1, h2, l, hl, h3, h4, h5⟩
      · have hnone : terms.find? (fun t => t.term == row.source) = none := by
          rw [List.find?_eq_none]
          intro t ht
          simpa using hm t ht
        simp [importLinksLoop, hnone, g1, g2]
      · have hnone : terms.find? (fun t => t.term == row.target) = none := by
          rw [List.find?_eq_none]
          intro t ht
          simpa using hm t ht
        cases hsrc : terms.find? (fun t => t.term == row.source) with
        | none => simp [importLinksLoop, hsrc, g1, g2]
        | some st => simp [importLinksLoop, hsrc, hnone, g1, g2]
      · have hssome : (terms.find? (fun t => t.term == row.source)).isSome := by
          rw [List.find?_isSome]
          exact ⟨st, hst, by simpa using h1⟩
        obtain ⟨st', hst'⟩ := Option.isSome_iff_exists.mp hssome
        have hst'n : st'.term = row.source := by simpa using List.find?_some hst'
        have hst'e : st' = st := eq_of_pairwise_key hnm
          (List.mem_of_find?_eq_some hst') hst (hst'n.trans h1.symm)
        have htsome : (terms.find? (fun t => t.term == row.target)).isSome := by
          rw [List.find?_isSome]
          exact ⟨tt, htt, by simpa using h2⟩
        obtain ⟨tt', htt'⟩ := Option.isSome_iff_exists.mp htsome
        have htt'n : tt'.term = row.target := by simpa using List.find?_some htt'
        have htt'e : tt' = tt := eq_of_pairwise_key hnm
          (List.mem_of_find?_eq_some htt') htt (htt'n.trans h2.symm)
        subst hst'e htt'e
        have hdsome : (links.find? (fun l =>
            l.source_id == st'.id && l.target_id == tt'.id &&
            l.relation == row.relation)).isSome := by
          rw [List.find?_isSome]
          exact ⟨l, hl, by simp [h3, h4, h5]⟩
        obtain ⟨l', hl'⟩ := Option.isSome_iff_exists.mp hdsome
        simp [importLinksLoop, hst', htt', hl', g1, g2]

/-- Pending triples reappear among the flushed links of the commit. -/
theorem mem_assignLinkIds (next : Nat) (pending : List (Nat × Nat × String))
    (p : Nat × Nat × String) (hp : p ∈ pending) :
    ∃ l ∈ assignLinkIds next pending,
      l.source_id = p.1 ∧ l.target_id = p.2.1 ∧ l.relation = p.2.2 := by
  induction pending generalizing next with
  | nil => cases hp
  | cons q qs ih =>
      obtain ⟨s, t, rel⟩ := q
      rcases List.mem_cons.mp hp with rfl | h
      · exact ⟨⟨next, s, t, rel⟩, by simp [assignLinkIds], rfl, rfl, rfl⟩
      · obtain ⟨l, hlm, h2⟩ := ih (next + 1) h
        exact ⟨l, by simp [assignLinkIds, hlm], h2⟩

/-- After a committed link pass every input row is settled against the
resulting store. -/
theorem import_links_settles (rows : List LinkRow) (db : DB) :
    ∀ row ∈ rows,
      linkRowSettled (import_links rows db).1.terms (import_links rows db).1.links row := by
  intro row hrow
  rcases importLinksLoop_settles db.terms db.links rows row hrow with
    h | h | ⟨st, hst, tt, htt, h1, h2, h3 | hpend⟩
  · exact .inl h
  · exact .inr (.inl h)
  · obtain ⟨l, hl, hf⟩ := h3
    exact .inr (.inr ⟨st, hst, tt, htt, h1, h2, l, List.mem_append_left _ hl, hf⟩)
  · obtain ⟨l, hlm, hf1, hf2, hf3⟩ :=
      mem_assignLinkIds db.nextLinkId _ _ hpend
    exact .inr (.inr ⟨st, hst, tt, htt, h1, h2, l,
      List.mem_append_right _ hlm, hf1, hf2, hf3⟩)

/-- A settled store makes the whole link pass a no-op that creates
nothing. -/
theorem import_links_settled_noop (rows : List LinkRow) (db : DB)
    (hnm : db.terms.Pairwise (fun a b => a.term ≠ b.term))
    (h : ∀ row ∈ rows, linkRowSettled db.terms db.links row) :
    (import_links rows db).1 = db ∧ (import_links rows db).2.1 = 0 := by
  obtain ⟨g1, g2⟩ := importLinksLoop_noop db.terms db.links rows hnm h
  constructor
  · simp [import_links, g1, assignLinkIds]
  · simp [import_links, g2]

/-- **C6 (amended).** On a well-formed store, when the input term rows
have pairwise distinct names, one reconciliation run commits and reports
successfully, and a second run on the same input leaves the store
exactly as after the first and reports zero created terms, zero updated
terms and zero created links. -/
theorem import_run_idempotent (termRows : List TermRow) (linkRows : List LinkRow)
    (db : DB) (hWF : WF db)
    (hdist : termRows.Pairwise (fun a b => a.term ≠ b.term)) :
    ∃ db1 r1, import_run termRows linkRows db = (db1, some r1) ∧
      (import_run termRows linkRows db1).1 = db1 ∧
      ∃ r2, (import_run termRows linkRows db1).2 = some r2 ∧
        r2.created = 0 ∧ r2.updated = 0 ∧ r2.linksCreated = 0 := by
  obtain ⟨dbt, c, u, n, hok, hWFt, _, _, hset⟩ := import_terms_ok termRows db hWF hdist
  have hterms1 : (import_links linkRows dbt).1.terms = dbt.terms := rfl
  have hnm1 : (import_links linkRows dbt).1.terms.Pairwise
      (fun a b => a.term ≠ b.term) := by
    rw [hterms1]
    exact hWFt.2.2.1
  have hset1 : ∀ row ∈ termRows, settledRow (import_links linkRows dbt).1.terms row := by
    rw [hterms1]
    exact hset
  have hok2 := import_terms_settled_noop termRows (import_links linkRows dbt).1 hnm1 hset1
  obtain ⟨g1, g2⟩ := import_links_settled_noop linkRows (import_links linkRows dbt).1 hnm1
    (import_links_settles linkRows dbt)
  refine ⟨(import_links linkRows dbt).1,
    ⟨c, u, n, (import_links linkRows dbt).2.1, (import_links linkRows dbt).2.2⟩,
    by simp [import_run, hok], ?_, ?_⟩
  · simp [import_run, hok2, g1]
  · exact ⟨⟨0, 0, termRows.length,
      (import_links linkRows (import_links linkRows dbt).1).2.1,
      (import_links linkRows (import_links linkRows dbt).1).2.2⟩,
      by simp [import_run, hok2], rfl, rfl, g2⟩

/-- Witness for C6 (amended) on a concrete input. -/
theorem import_run_idempotent_witness :
    ∃ db1 r1, import_run [⟨"A", "d"⟩] [⟨"A", "A", "r"⟩] emptyDB = (db1, some r1) ∧
      (import_run [⟨"A", "d"⟩] [⟨"A", "A", "r"⟩] db1).1 = db1 ∧
      ∃ r2, (import_run [⟨"A", "d"⟩] [⟨"A", "A", "r"⟩] db1).2 = some r2 ∧
        r2.created = 0 ∧ r2.updated = 0 ∧ r2.linksCreated = 0 :=
  import_run_idempotent [⟨"A", "d"⟩] [⟨"A", "A", "r"⟩] emptyDB WF_empty
    (List.pairwise_singleton _ _)

/-- **C6 is false as stated:** with the two term rows `(A, d1)`, `(A, d2)`
sharing a name, the run from the empty store inserts `A` twice inside one
session (`autoflush=False` hides the first pending insert from the second
row's query) and the commit fails the `terms.term` UNIQUE constraint, so
`main` rolls back: no report at all, rather than a zero-update report;
and over a store already holding `A` with definition `d2`, both runs
report two updates — the second run does not report zero updated even
though the end state repeats. -/
theorem import_run_duplicate_rows_counterexample :
    import_run [⟨"A", "d1"⟩, ⟨"A", "d2"⟩] [] emptyDB = (emptyDB, none) ∧
    (import_run [⟨"A", "d1"⟩, ⟨"A", "d2"⟩] []
        (import_run [⟨"A", "d1"⟩, ⟨"A", "d2"⟩] []
          ⟨[⟨1, "A", "d2", "term"⟩], [], 2, 1⟩).1).2 = some ⟨0, 2, 0, 0, 0⟩ := by
  decide

end Glossary
